import Mathlib

set_option linter.unusedVariables false
set_option linter.unnecessarySeqFocus false

/-!
Shallow embedding of the traceback library.

The repository carries two revisions of `traceback.c`:

* the *write-probe* revision (`src/traceback/traceback.c`): address
  validity is tested with `write(fd, address, 1)` before each string byte
  is read; frame reads and array-element reads are unguarded, so an
  unreadable address there faults the process;
* the *sigsetjmp* revision (`src/unnamed/part_000`): a SIGSEGV handler
  performs `siglongjmp` to the most recently armed `sigsetjmp` checkpoint,
  so a faulting read resumes at that checkpoint.

Memory is modelled by two read primitives returning `none` on an
unreadable address.  Machine words are modelled as mathematical integers
(no wraparound); where a claim depends on the 32-bit address space this
appears as an explicit hypothesis.  Loops whose trip count is not
syntactically bounded take an explicit fuel argument; exhausting fuel is
reported as a distinguished outcome so that no theorem can mistake it
for behaviour of the C code.
-/

/-- MAX_STRING_LEN: maximum number of chars of a string argument to print. -/
def MAX_STRING_LEN : Nat := 25

/-- MAX_ARRAY_LEN: maximum number of elements of a string array to print. -/
def MAX_ARRAY_LEN : Nat := 3

/-- Argument type tags (the TYPE_* codes of traceback_internal.h); the
`unknown` constructor stands for every code hitting the switch default. -/
inductive ArgType where
  | char
  | int
  | float
  | double
  | string
  | stringArray
  | voidstar
  | unknown
deriving DecidableEq

/-- argsym_t: one argument descriptor. -/
structure Argsym where
  name : String
  offset : Int
  type : ArgType
deriving DecidableEq

/-- functsym_t: one function descriptor.  `args` models the fixed-capacity
argument array as the list of its slots (a slot with empty name is the
sentinel terminating the scan). -/
structure Functsym where
  name : String
  addr : Int
  args : List Argsym
deriving DecidableEq

/-- Memory, as the two read primitives the code uses: 1-byte reads
(char accesses) and 4-byte word reads (int and pointer accesses).
`none` models an unreadable address. -/
structure Mem where
  byte : Int → Option Int
  word : Int → Option Int

/-- Unsigned 32-bit reinterpretation of a C int value (what printf %x
receives). -/
def uns32 (v : Int) : Nat := (v % (2 ^ 32 : Int)).toNat

/-- Lowercase hex digits, printf "%x" on a nonnegative value. -/
def hexStr (n : Nat) : String := String.mk (Nat.toDigits 16 n)

/-- printf "%#x": alternate-form hex, which prints plain "0" for zero. -/
def fmtHexAlt (v : Int) : String :=
  if uns32 v = 0 then "0" else "0x" ++ hexStr (uns32 v)

/-- printf "0x%x". -/
def fmtHex0x (v : Int) : String := "0x" ++ hexStr (uns32 v)

/-- printf "%o" applied to a (signed) char value after integer promotion,
printed as an unsigned 32-bit octal numeral. -/
def fmtOct (c : Int) : String :=
  String.mk (Nat.toDigits 8 (uns32 (if c < 128 then c else c - 256)))

/-- Abstract rendering of printf "%f" on a 4-byte pattern.  Floating-point
text formatting is outside this integer embedding; no claim depends on the
text, only on its determinism, so the bit pattern is kept verbatim. -/
def fmtFloat (w : Int) : String := "float-bits:" ++ toString w

/-- Abstract rendering of printf "%lf" on an 8-byte pattern (two words). -/
def fmtDouble (w1 w2 : Int) : String :=
  "double-bits:" ++ toString w1 ++ ":" ++ toString w2

/-- isvalid, write-probe revision: `write(fd, address, 1)` returns -1
exactly when the byte at `address` is unreadable. -/
def isvalid (mem : Mem) (a : Int) : Bool := (mem.byte a).isSome

/-- isprint in the C locale: codes 0x20 .. 0x7e.  (A char value outside
0..127 is negative after promotion and is not printable.) -/
def isPrintB (c : Int) : Bool := decide (32 ≤ c) && decide (c ≤ 126)

/-- The byte loop shared by both revisions of `is_string_print`: walk
`arg_val[len]` upward; an unreadable byte (write-probe: `isvalid` fails
before the read; sigsetjmp: the read faults and the handler resumes) makes
the string unprintable (`some none`); a 0 byte ends it printable with its
length (`some (some len)`); a non-printable byte makes it unprintable.
`none` is fuel exhaustion, a model artifact. -/
def strScan (mem : Mem) (a : Int) : Nat → Nat → Option (Option Nat)
  | _, 0 => none
  | len, fuel + 1 =>
    match mem.byte (a + (len : Int)) with
    | none => some none
    | some c =>
      if c = 0 then some (some len)
      else if isPrintB c then strScan mem a (len + 1) fuel
      else some none

/-- is_string_print: a null pointer is not printable; otherwise scan the
bytes.  `some (some len)` means printable with length `len`. -/
def is_string_print (mem : Mem) (a : Int) (fuel : Nat) : Option (Option Nat) :=
  if a = 0 then some none else strScan mem a 0 fuel

/-- The chars emitted by print_string's output loop: bytes `a .. a+n-1`.
The loop only runs after the scan validated them, so the default on the
(impossible) unreadable case is never observable. -/
def strBody (mem : Mem) (a : Int) (n : Nat) : String :=
  String.mk ((List.range n).map
    (fun (i : Nat) => Char.ofNat ((mem.byte (a + (i : Int))).getD 0).toNat))

/-- print_string, write-probe revision.  Printable: quote
min(len, MAX_STRING_LEN) chars and append "..." exactly when the loop
counter reached MAX_STRING_LEN while chars remain; otherwise print the
pointer with "%#x".  `none` is fuel exhaustion inside the scan. -/
def print_string (mem : Mem) (a : Int) (fuel : Nat) : Option String :=
  match is_string_print mem a fuel with
  | none => none
  | some none => some (fmtHexAlt a)
  | some (some len) =>
    let i := min len MAX_STRING_LEN
    some ("\"" ++ strBody mem a i ++
      (if MAX_STRING_LEN ≤ i ∧ i < len then "..." else "") ++ "\"")

/-- print_string, sigsetjmp revision: identical except the fallback is
printed with "0x%x" instead of "%#x". -/
def print_string_jmp (mem : Mem) (a : Int) (fuel : Nat) : Option String :=
  match is_string_print mem a fuel with
  | none => none
  | some none => some (fmtHex0x a)
  | some (some len) =>
    let i := min len MAX_STRING_LEN
    some ("\"" ++ strBody mem a i ++
      (if MAX_STRING_LEN ≤ i ∧ i < len then "..." else "") ++ "\"")

/-- Outcome of a formatter call: `ok` with its output, `fault` with the
output already emitted when an unguarded read hit an unreadable address,
or `fuelOut` (model artifact) with the output so far. -/
inductive PRes where
  | ok : String → PRes
  | fault : String → PRes
  | fuelOut : String → PRes
deriving DecidableEq

/-- Whether a formatter outcome is the fuel-exhaustion artifact. -/
def PRes.isFuelOut : PRes → Bool
  | .fuelOut _ => true
  | _ => false

/-- The element loop of print_string_array, write-probe revision.  Each
loop test reads `arg_val[i]` with no validity check: an unreadable word
faults.  `i` is the element index, the second argument the remaining
structural steps (the loop body runs at most MAX_ARRAY_LEN+1 times since
it stops at `i = MAX_ARRAY_LEN`). -/
def psaLoopP (mem : Mem) (sfuel : Nat) (a : Int) : Nat → Nat → String → PRes
  | _, 0, acc => .fuelOut acc
  | i, k + 1, acc =>
    match mem.word (a + 4 * (i : Int)) with
    | none => .fault acc
    | some p =>
      if p ≠ 0 ∧ i < MAX_ARRAY_LEN then
        let acc2 := acc ++ (if 0 < i then ", " else "")
        match print_string mem p sfuel with
        | none => .fuelOut acc2
        | some s => psaLoopP mem sfuel a (i + 1) k (acc2 ++ s)
      else
        .ok (acc ++ (if p ≠ 0 ∧ MAX_ARRAY_LEN ≤ i then ", ..." else "") ++ "\x7d")

/-- print_string_array, write-probe revision: null prints "0x0"; otherwise
brace-wrapped elements, each rendered by print_string, stopping at the
first null element or after MAX_ARRAY_LEN elements (then ", ..." if a
further non-null element follows). -/
def print_string_array (mem : Mem) (sfuel : Nat) (a : Int) : PRes :=
  if a = 0 then .ok "0x0" else psaLoopP mem sfuel a 0 (MAX_ARRAY_LEN + 1) "\x7b"

/-- The probe loop run by the sigsetjmp revision of print_string_array
before any output: read `arg_val[i]` for i < MAX_ARRAY_LEN until a null
entry.  Returns true exactly when one of those reads faults. -/
def psaPre (mem : Mem) (a : Int) : Nat → Nat → Bool
  | _, 0 => false
  | i, k + 1 =>
    if i < MAX_ARRAY_LEN then
      match mem.word (a + 4 * (i : Int)) with
      | none => true
      | some p => if p = 0 then false else psaPre mem a (i + 1) k
    else false

/-- The element loop of print_string_array, sigsetjmp revision: a faulting
element read lands in the function's own sigsetjmp checkpoint, which
prints the array pointer with "%#x" after the output already emitted. -/
def psaLoopJ (mem : Mem) (sfuel : Nat) (a : Int) : Nat → Nat → String → Option String
  | _, 0, _ => none
  | i, k + 1, acc =>
    match mem.word (a + 4 * (i : Int)) with
    | none => some (acc ++ fmtHexAlt a)
    | some p =>
      if p ≠ 0 ∧ i < MAX_ARRAY_LEN then
        let acc2 := acc ++ (if 0 < i then ", " else "")
        match print_string_jmp mem p sfuel with
        | none => none
        | some s => psaLoopJ mem sfuel a (i + 1) k (acc2 ++ s)
      else
        some (acc ++ (if p ≠ 0 ∧ MAX_ARRAY_LEN ≤ i then ", ..." else "") ++ "\x7d")

/-- print_string_array, sigsetjmp revision. -/
def print_string_array_jmp (mem : Mem) (sfuel : Nat) (a : Int) : Option String :=
  if a = 0 then some "0x0"
  else if psaPre mem a 0 MAX_ARRAY_LEN then some (fmtHexAlt a)
  else psaLoopJ mem sfuel a 0 (MAX_ARRAY_LEN + 1) "\x7b"

/-- One argument rendering of print_arguments, write-probe revision.  The
value is read from `ebp + arg.offset / sizeof(int)` in int-pointer
arithmetic (byte address `ebp + 4 * (offset / 4)`, C truncating division).
CHAR/INT/FLOAT/DOUBLE/VOIDSTAR reads are unguarded; STRING and
STRING_ARRAY print their type prefix before reading the pointer value. -/
def render_arg (mem : Mem) (sfuel : Nat) (ebp : Int) (arg : Argsym) : PRes :=
  let addr := ebp + 4 * arg.offset.tdiv 4
  match arg.type with
  | .char =>
    match mem.byte addr with
    | none => .fault ""
    | some c =>
      if isPrintB c then
        .ok ("char " ++ arg.name ++ "=\x27" ++ String.mk [Char.ofNat c.toNat] ++ "\x27")
      else
        .ok ("char " ++ arg.name ++ "=\x27\\" ++ fmtOct c ++ "\x27")
  | .int =>
    match mem.word addr with
    | none => .fault ""
    | some v => .ok ("int " ++ arg.name ++ "=" ++ toString v)
  | .float =>
    match mem.word addr with
    | none => .fault ""
    | some v => .ok ("float " ++ arg.name ++ "=" ++ fmtFloat v)
  | .double =>
    match mem.word addr, mem.word (addr + 4) with
    | some v1, some v2 => .ok ("double " ++ arg.name ++ "=" ++ fmtDouble v1 v2)
    | _, _ => .fault ""
  | .string =>
    match mem.word addr with
    | none => .fault ("char *" ++ arg.name ++ "=")
    | some p =>
      match print_string mem p sfuel with
      | none => .fuelOut ("char *" ++ arg.name ++ "=")
      | some s => .ok ("char *" ++ arg.name ++ "=" ++ s)
  | .stringArray =>
    match mem.word addr with
    | none => .fault ("char **" ++ arg.name ++ "=")
    | some p =>
      match print_string_array mem sfuel p with
      | .ok s => .ok ("char **" ++ arg.name ++ "=" ++ s)
      | .fault s => .fault ("char **" ++ arg.name ++ "=" ++ s)
      | .fuelOut s => .fuelOut ("char **" ++ arg.name ++ "=" ++ s)
  | .voidstar =>
    match mem.word addr with
    | none => .fault ""
    | some v => .ok ("void *" ++ arg.name ++ "=0v" ++ hexStr (uns32 v))
  | .unknown => .ok ("UNKNOWN " ++ arg.name ++ "=" ++ fmtHexAlt addr)

/-- One argument rendering, sigsetjmp revision: identical layout; an
unguarded read that faults lands in the most recent checkpoint (modelled
as the loop checkpoint, reported as `fault`), and the STRING /
STRING_ARRAY sub-printers use their sigsetjmp variants. -/
def render_arg_jmp (mem : Mem) (sfuel : Nat) (ebp : Int) (arg : Argsym) : PRes :=
  let addr := ebp + 4 * arg.offset.tdiv 4
  match arg.type with
  | .char =>
    match mem.byte addr with
    | none => .fault ""
    | some c =>
      if isPrintB c then
        .ok ("char " ++ arg.name ++ "=\x27" ++ String.mk [Char.ofNat c.toNat] ++ "\x27")
      else
        .ok ("char " ++ arg.name ++ "=\x27\\" ++ fmtOct c ++ "\x27")
  | .int =>
    match mem.word addr with
    | none => .fault ""
    | some v => .ok ("int " ++ arg.name ++ "=" ++ toString v)
  | .float =>
    match mem.word addr with
    | none => .fault ""
    | some v => .ok ("float " ++ arg.name ++ "=" ++ fmtFloat v)
  | .double =>
    match mem.word addr, mem.word (addr + 4) with
    | some v1, some v2 => .ok ("double " ++ arg.name ++ "=" ++ fmtDouble v1 v2)
    | _, _ => .fault ""
  | .string =>
    match mem.word addr with
    | none => .fault ("char *" ++ arg.name ++ "=")
    | some p =>
      match print_string_jmp mem p sfuel with
      | none => .fuelOut ("char *" ++ arg.name ++ "=")
      | some s => .ok ("char *" ++ arg.name ++ "=" ++ s)
  | .stringArray =>
    match mem.word addr with
    | none => .fault ("char **" ++ arg.name ++ "=")
    | some p =>
      match print_string_array_jmp mem sfuel p with
      | none => .fuelOut ("char **" ++ arg.name ++ "=")
      | some s => .ok ("char **" ++ arg.name ++ "=" ++ s)
  | .voidstar =>
    match mem.word addr with
    | none => .fault ""
    | some v => .ok ("void *" ++ arg.name ++ "=0v" ++ hexStr (uns32 v))
  | .unknown => .ok ("UNKNOWN " ++ arg.name ++ "=" ++ fmtHexAlt addr)

/-- The argument loop of print_arguments: iterate the slot list until the
sentinel (empty name), printing ", " before every argument but the first. -/
def argsLoop (mem : Mem) (sfuel : Nat) (ebp : Int) :
    List Argsym → Nat → String → PRes
  | [], _, acc => .ok acc
  | arg :: rest, idx, acc =>
    if arg.name = "" then .ok acc
    else
      let acc2 := acc ++ (if 0 < idx then ", " else "")
      match render_arg mem sfuel ebp arg with
      | .ok s => argsLoop mem sfuel ebp rest (idx + 1) (acc2 ++ s)
      | .fault s => .fault (acc2 ++ s)
      | .fuelOut s => .fuelOut (acc2 ++ s)

/-- print_arguments, write-probe revision: "void" when the loop ran zero
iterations. -/
def print_arguments (mem : Mem) (sfuel : Nat) (f : Functsym) (ebp : Int) : PRes :=
  match f.args with
  | [] => .ok "void"
  | arg :: _ =>
    if arg.name = "" then .ok "void" else argsLoop mem sfuel ebp f.args 0 ""

/-- The argument loop, sigsetjmp revision. -/
def argsLoopJ (mem : Mem) (sfuel : Nat) (ebp : Int) :
    List Argsym → Nat → String → PRes
  | [], _, acc => .ok acc
  | arg :: rest, idx, acc =>
    if arg.name = "" then .ok acc
    else
      let acc2 := acc ++ (if 0 < idx then ", " else "")
      match render_arg_jmp mem sfuel ebp arg with
      | .ok s => argsLoopJ mem sfuel ebp rest (idx + 1) (acc2 ++ s)
      | .fault s => .fault (acc2 ++ s)
      | .fuelOut s => .fuelOut (acc2 ++ s)

/-- print_arguments, sigsetjmp revision. -/
def print_arguments_jmp (mem : Mem) (sfuel : Nat) (f : Functsym) (ebp : Int) : PRes :=
  match f.args with
  | [] => .ok "void"
  | arg :: _ =>
    if arg.name = "" then .ok "void" else argsLoopJ mem sfuel ebp f.args 0 ""

/-- The scan loop shared by both revisions of get_index: advance while the
slot is named and its address does not exceed the return address, i.e.
stop at the first slot with empty name (or the end of the array, the
FUNCTS_MAX_NUM bound) or with `addr > return_address`.  Returns the stop
index and whether the stop was the `addr > return_address` break (the
`find` flag of the write-probe revision). -/
def scanFind (ra : Int) : List Functsym → Nat × Bool
  | [] => (0, false)
  | f :: rest =>
    if f.name = "" then (0, false)
    else if ra < f.addr then (0, true)
    else ((scanFind ra rest).1 + 1, (scanFind ra rest).2)

/-- get_index, write-probe revision: `find ? index - 1 : -1`.  There is no
size-bound check in this revision. -/
def get_index (tbl : List Functsym) (ra : Int) : Int :=
  if (scanFind ra tbl).2 then ((scanFind ra tbl).1 : Int) - 1 else -1

/-- Bounds-checked read of `functions[i].addr`; `none` = the C access is
out of the array's bounds. -/
def tblAddrRead (tbl : List Functsym) (i : Int) : Option Int :=
  if h : 0 ≤ i ∧ i.toNat < tbl.length then some (tbl.get ⟨i.toNat, h.2⟩).addr
  else none

/-- get_index, sigsetjmp revision: after the scan, accept `index - 1` only
when `return_address - functions[index - 1].addr < MAX_FUNCTION_SIZE_BYTES`
(the bound `maxsz`, defined in the header missing from src/ and kept
abstract).  The read `functions[index - 1].addr` is performed whenever the
scan stopped (the guard `index >= 0` is always true), so `index = 0` reads
`functions[-1]` out of bounds; the Bool records that read.  The Int result
is `-1` in that case irrespective of the junk value read, because both
branches of the C conditional then return -1 (`index - 1 = -1`). -/
def get_index_jmp (maxsz : Int) (tbl : List Functsym) (ra : Int) : Int × Bool :=
  let i : Int := ((scanFind ra tbl).1 : Int)
  match tblAddrRead tbl (i - 1) with
  | some a0 => (if 0 ≤ i ∧ ra - a0 < maxsz then i - 1 else -1, false)
  | none => (-1, true)

/-- Bounds-checked read of `functions[i]`. -/
def tblRead (tbl : List Functsym) (i : Int) : Option Functsym :=
  if h : 0 ≤ i ∧ i.toNat < tbl.length then some (tbl.get ⟨i.toNat, h.2⟩)
  else none

/-- is_main (write-probe revision only):
`!strcmp(functions[exit_index].name, "exit") ||
 !strcmp(functions[cur_index].name, "_start")`, with C short-circuit
order.  `none` = an index is outside the array (the read is out of
bounds). -/
def is_main (tbl : List Functsym) (cur exitIdx : Int) : Option Bool :=
  match tblRead tbl exitIdx with
  | none => none
  | some fe =>
    if fe.name = "exit" then some true
    else
      match tblRead tbl cur with
      | none => none
      | some fc => some (fc.name = "_start")

/-- `functions[index]` for an index the scan produced (provably inside the
array; the default is unreachable). -/
def tblGetD (tbl : List Functsym) (n : Nat) : Functsym :=
  (tbl.get? n).getD ⟨"", 0, []⟩

/-- Outcome of a walker run: `done` = the loop exited by one of its
breaks; `fault` = an unguarded read faulted the process (write-probe
revision only); `oob` = an out-of-bounds functions[] access (undefined
behaviour); `fuelOut` = fuel exhaustion, a model artifact. -/
inductive TbStatus where
  | done
  | fault
  | oob
  | fuelOut
deriving DecidableEq

/-- Prefix this iteration's output onto the rest of the run. -/
def emit (s : String) : String × TbStatus → String × TbStatus :=
  fun r => (s ++ r.1, r.2)

/-- The traceback loop, write-probe revision (`traceback` in
src/traceback/traceback.c), from the current ebp.  Each iteration reads
`old_ebp = *ebp` and `return_address = *(ebp+1)` unguarded; breaks with
the FATAL line when `ebp >= old_ebp`; unresolved return addresses print a
raw-address line and continue; resolved ones compute the heuristic exit
address `return_address + *(int*)(return_address + 4) + 8`, stop silently
when is_main says so, else print the frame line and continue into
`old_ebp`. -/
def traceback (tbl : List Functsym) (mem : Mem) (sfuel : Nat) :
    Nat → Int → String × TbStatus
  | 0, _ => ("", .fuelOut)
  | fuel + 1, ebp =>
    match mem.word ebp, mem.word (ebp + 4) with
    | some old_ebp, some ra =>
      if old_ebp ≤ ebp then ("FATAL: Stack Wrong!\n", .done)
      else
        let index := get_index tbl ra
        if index < 0 then
          emit ("Function 0x" ++ hexStr (uns32 ra) ++ "(...), in\n")
            (traceback tbl mem sfuel fuel old_ebp)
        else
          let curr := tblGetD tbl index.toNat
          match mem.word (ra + 4) with
          | none => ("", .fault)
          | some m =>
            let exitIdx := get_index tbl (ra + m + 8)
            match is_main tbl index exitIdx with
            | none => ("", .oob)
            | some true => ("", .done)
            | some false =>
              match print_arguments mem sfuel curr old_ebp with
              | .ok s =>
                emit ("Function " ++ curr.name ++ "(" ++ s ++ "), in\n")
                  (traceback tbl mem sfuel fuel old_ebp)
              | .fault s => ("Function " ++ curr.name ++ "(" ++ s, .fault)
              | .fuelOut s => ("Function " ++ curr.name ++ "(" ++ s, .fuelOut)
    | _, _ => ("", .fault)

/-- The traceback loop, sigsetjmp revision (`traceback` in
src/unnamed/part_000): breaks silently when ebp is null or any frame read
faults (the loop checkpoint catches it); the corruption break additionally
requires `old_ebp` non-null; there is no is_main test (the exit-index
lookup is computed and unused); a fault inside print_arguments that
reaches the loop checkpoint ends the walk after the unfinished line. -/
def traceback_jmp (maxsz : Int) (tbl : List Functsym) (mem : Mem) (sfuel : Nat) :
    Nat → Int → String × TbStatus
  | 0, _ => ("", .fuelOut)
  | fuel + 1, ebp =>
    if ebp = 0 then ("", .done)
    else
      match mem.word ebp, mem.word (ebp + 4) with
      | some old_ebp, some ra =>
        if old_ebp ≠ 0 ∧ old_ebp ≤ ebp then ("FATAL: Stack Wrong!\n", .done)
        else
          let index := (get_index_jmp maxsz tbl ra).1
          if index < 0 then
            emit ("Function 0x" ++ hexStr (uns32 ra) ++ "(...), in\n")
              (traceback_jmp maxsz tbl mem sfuel fuel old_ebp)
          else
            let curr := tblGetD tbl index.toNat
            match mem.word (ra + 4) with
            | none => ("", .done)
            | some m =>
              let exitIdx := (get_index_jmp maxsz tbl (ra + m + 8)).1
              match print_arguments_jmp mem sfuel curr old_ebp with
              | .ok s =>
                emit ("Function " ++ curr.name ++ "(" ++ s ++ "), in\n")
                  (traceback_jmp maxsz tbl mem sfuel fuel old_ebp)
              | .fault s => ("Function " ++ curr.name ++ "(" ++ s, .done)
              | .fuelOut s => ("Function " ++ curr.name ++ "(" ++ s, .fuelOut)
      | _, _ => ("", .done)

/-- The descriptor sequence proper: the named slots before the first
sentinel (what the specification calls the collection of
FunctionDescriptors). -/
def leadingNamed (tbl : List Functsym) : List Functsym :=
  tbl.takeWhile (fun f => !(f.name == ""))

/-- The table invariant the specification states: descriptors sorted by
strictly ascending start address (no duplicates). -/
def SortedTable (tbl : List Functsym) : Prop :=
  List.Chain' (fun f g => f.addr < g.addr) (leadingNamed tbl)

/-- Address `ra` lies in the covered range of some descriptor, where a
descriptor starting at `s` covers `[s, s + maxsz)`. -/
def covered (maxsz : Int) (tbl : List Functsym) (ra : Int) : Prop :=
  ∃ f ∈ leadingNamed tbl, f.addr ≤ ra ∧ ra < f.addr + maxsz

/-- Some byte within the next `n` positions after `p` stops the string
scan (unreadable, terminator, or not printable).  Real memory always
satisfies this for some `n`: the address space is finite. -/
def stopsWithin (mem : Mem) (p : Int) (n : Nat) : Prop :=
  ∃ k : Nat, k < n ∧ (mem.byte (p + (k : Int)) = none ∨
    ∃ c, mem.byte (p + (k : Int)) = some c ∧ (c = 0 ∨ isPrintB c = false))

/-- Fuel sufficient for the sigsetjmp walker from frame pointer `ebp`
(one step for the null-frame stop, else the 32-bit address headroom). -/
def jmpFuelNeed (ebp : Int) : Nat :=
  if ebp = 0 then 1 else 2 ^ 32 + 1 - ebp.toNat

/-- Fixture: a table whose single descriptor "f" starts at 100. -/
def tblA : List Functsym := [⟨"f", 100, []⟩, ⟨"", 0, []⟩]

/-- Fixture: descriptors "f" at 100 and "g" at 500. -/
def tblB : List Functsym := [⟨"f", 100, []⟩, ⟨"g", 500, []⟩, ⟨"", 0, []⟩]

/-- Fixture: fully unreadable memory. -/
def memNone : Mem := ⟨fun _ => none, fun _ => none⟩

/-- Fixture: a printable 25-byte string of letter A at address 1,
null-terminated at 26. -/
def memS : Mem :=
  ⟨fun a => if 1 ≤ a ∧ a ≤ 25 then some 65 else if a = 26 then some 0 else none,
   fun _ => none⟩

/-- Fixture: a frame at 200 whose saved frame pointer equals 200
(corrupt), return address 105 resolving to "f" of tblB, and the word
after the return site holding 1000 (heuristic exit address 1113,
unresolved). -/
def memC : Mem :=
  ⟨fun _ => none,
   fun a => if a = 200 then some 200 else if a = 204 then some 105
            else if a = 109 then some 1000 else none⟩

/-- Fixture: like memC but with a healthy saved frame pointer 300, so the
walk reaches the is_main test with an unresolved exit index. -/
def memB10 : Mem :=
  ⟨fun _ => none,
   fun a => if a = 200 then some 300 else if a = 204 then some 105
            else if a = 109 then some 1000 else none⟩

/-- Fixture: a healthy two-frame chain 100 -> 200 -> 0 whose return
addresses 999999 resolve to no descriptor. -/
def memD : Mem :=
  ⟨fun _ => none,
   fun a => if a = 100 then some 200 else if a = 104 then some 999999
            else if a = 200 then some 0 else if a = 204 then some 999999
            else none⟩

/-- Fixture: a frame at 100 whose saved frame pointer 50 is below it. -/
def memFat : Mem :=
  ⟨fun _ => none,
   fun a => if a = 100 then some 50 else if a = 104 then some 0 else none⟩

/-- Fixture: a one-element string array at 8 pointing at "hi" (104 105 0)
at address 50. -/
def memArr : Mem :=
  ⟨fun a => if a = 50 then some 104 else if a = 51 then some 105
            else if a = 52 then some 0 else none,
   fun a => if a = 8 then some 50 else if a = 12 then some 0 else none⟩

/-- Fixture: the two-byte printable string "Hi" at address 10. -/
def memHi : Mem :=
  ⟨fun a => if a = 10 then some 72 else if a = 11 then some 105
            else if a = 12 then some 0 else none,
   fun _ => none⟩

/-- Fixture: descriptors "f" at 100, "exit" at 113, "g" at 500. -/
def tblE : List Functsym :=
  [⟨"f", 100, []⟩, ⟨"exit", 113, []⟩, ⟨"g", 500, []⟩, ⟨"", 0, []⟩]

/-- Fixture: a frame at 200 (saved frame pointer 300) returning into "f"
at 105, with heuristic operand 1, so the exit address 114 resolves to
"exit". -/
def memE : Mem :=
  ⟨fun _ => none,
   fun a => if a = 200 then some 300 else if a = 204 then some 105
            else if a = 109 then some 1 else none⟩

/-- C1 (counterexample): in the write-probe revision, descriptor 0 of
tblA starts at address 100, yet get_index on exactly 100 returns -1, not
0 — the scan only accepts an address when a *later* named slot exceeds
it, so the last descriptor's exact start address is NOT_FOUND, refuting
the claim that every address equal to a descriptor's startAddress
resolves to that descriptor. -/
theorem c1_counterexample :
    (leadingNamed tblA).get? 0 = some ⟨"f", 100, []⟩ ∧
    get_index tblA 100 = -1 ∧ (-1 : Int) ≠ 0 := by
  refine ⟨rfl, rfl, by decide⟩

/-- C2 (counterexample): the frame at 100 has savedFramePointer 200,
non-null and not strictly below (indeed above) the frame pointer, so the
claim predicts the FATAL halt there; the walker instead prints the frame
and keeps reading — the corruption check in both revisions fires on
`savedFramePointer <= framePointer`, the opposite direction. -/
theorem c2_counterexample :
    memD.word 100 = some 200 ∧ (200 : Int) ≠ 0 ∧ (100 : Int) ≤ 200 ∧
    traceback_jmp 4096 tblB memD 5 10 100 =
      ("Function 0xf423f(...), in\nFunction 0xf423f(...), in\n",
        TbStatus.done) := by
  refine ⟨rfl, by decide, by decide, by rfl⟩

/-- C2 (amended): for every frame whose savedFramePointer is non-null and
not strictly ABOVE (i.e. <=) the current frame pointer, both revisions of
the walker emit exactly one FATAL line and return, reading nothing
further: the result is fully determined by the two words of this frame,
whatever the rest of memory holds. -/
theorem c2_corruption_halt (tbl : List Functsym) (maxsz : Int) (mem : Mem)
    (sfuel fuel : Nat) (ebp ofp ra : Int)
    (hw : mem.word ebp = some ofp) (hr : mem.word (ebp + 4) = some ra)
    (hnn : 0 < ofp) (hge : ofp ≤ ebp) :
    traceback tbl mem sfuel (fuel + 1) ebp =
      ("FATAL: Stack Wrong!\n", TbStatus.done) ∧
    traceback_jmp maxsz tbl mem sfuel (fuel + 1) ebp =
      ("FATAL: Stack Wrong!\n", TbStatus.done) := by
  constructor
  · unfold traceback
    rw [hw, hr]
    simp only [if_pos hge]
  · have h0 : ¬ ebp = 0 := by omega
    unfold traceback_jmp
    rw [hw, hr]
    have hc : ofp ≠ 0 ∧ ofp ≤ ebp := ⟨by omega, hge⟩
    simp only [if_neg h0, if_pos hc]

/-- C2 (witness): the amended theorem applied to the concrete corrupt
frame of memFat (saved frame pointer 50 below the frame pointer 100). -/
theorem c2_corruption_halt_witness :
    traceback tblA memFat 1 1 100 = ("FATAL: Stack Wrong!\n", TbStatus.done) ∧
    traceback_jmp 4096 tblA memFat 1 1 100 =
      ("FATAL: Stack Wrong!\n", TbStatus.done) :=
  c2_corruption_halt tblA 4096 memFat 1 0 100 50 0 rfl rfl (by decide) (by decide)

/-- C4: the write-probe Argument Formatter dereferences a STRING_ARRAY
base pointer with no validity check: on the fully unreadable memory the
very first element read of print_string_array at the non-null pointer 100
faults the process (after printing the opening brace), although isvalid —
the Address Validator of this revision — reports that address unreadable
and a guarded implementation would have degraded to a fallback. -/
theorem c4_unguarded_array_read :
    print_string_array memNone 40 100 = PRes.fault "\x7b" ∧
    isvalid memNone 100 = false := ⟨rfl, rfl⟩

/-- C8: the traceback output is a function of the symbol table, the
memory, and the initial frame pointer alone — two runs over pointwise
equal memories with no intervening mutation produce character-for-
character identical output, in both revisions. -/
theorem c8_deterministic (maxsz : Int) (tbl : List Functsym) (mem mem' : Mem)
    (sfuel fuel : Nat) (ebp : Int)
    (hb : ∀ a, mem.byte a = mem'.byte a) (hw : ∀ a, mem.word a = mem'.word a) :
    traceback tbl mem sfuel fuel ebp = traceback tbl mem' sfuel fuel ebp ∧
    traceback_jmp maxsz tbl mem sfuel fuel ebp =
      traceback_jmp maxsz tbl mem' sfuel fuel ebp := by
  obtain ⟨b, w⟩ := mem
  obtain ⟨b', w'⟩ := mem'
  have hb' : b = b' := funext hb
  have hw' : w = w' := funext hw
  subst hb'; subst hw'
  exact ⟨rfl, rfl⟩

/-- C8 (witness): the determinism theorem applied to two runs over the
same concrete memory. -/
theorem c8_deterministic_witness :
    traceback tblB memD 5 10 100 = traceback tblB memD 5 10 100 ∧
    traceback_jmp 4096 tblB memD 5 10 100 =
      traceback_jmp 4096 tblB memD 5 10 100 :=
  c8_deterministic 4096 tblB memD memD 5 10 100 (fun _ => rfl) (fun _ => rfl)

/-- C9: in the sigsetjmp revision, a return address below the first
descriptor's start (50 < 100) stops the scan at index 0 and the
size-bound check then reads `functions[0 - 1].addr` — an out-of-bounds
access (the `index >= 0` guard is always true), recorded by the Bool
component.  The claim that only indices in [0, FUNCTS_MAX_NUM) are
accessed is exactly what fails. -/
theorem c9_get_index_oob :
    get_index_jmp 4096 tblA 50 = (-1, true) ∧
    tblAddrRead tblA (-1) = none := ⟨rfl, rfl⟩

/-- C10: a reachable walker state hands is_main the exit index -1: frame
at 200 (saved frame pointer 300), return address 105 resolved to
descriptor 0, heuristic exit address 105 + 1000 + 8 = 1113 unresolved, so
`exit = -1` and `is_main` reads `functions[-1].name` out of bounds — the
walk reaches the undefined access before printing anything for the
frame. -/
theorem c10_is_main_oob :
    is_main tblB 0 (-1) = none ∧
    get_index tblB 1113 = -1 ∧
    traceback tblB memB10 5 10 200 = ("", TbStatus.oob) := ⟨rfl, rfl, rfl⟩

/-- Scan lemma: a run of readable printable non-zero bytes from position
`len` up to a terminator at `L` makes the scan succeed with length `L`. -/
theorem strScan_ok (mem : Mem) (a : Int) (L : Nat) :
    ∀ fuel len, len ≤ L →
    (∀ i : Nat, len ≤ i → i < L →
      ∃ c, mem.byte (a + (i : Int)) = some c ∧ c ≠ 0 ∧ isPrintB c = true) →
    mem.byte (a + (L : Int)) = some 0 →
    L - len < fuel →
    strScan mem a len fuel = some (some L) := by
  intro fuel
  induction fuel with
  | zero => intro len _ _ _ hf; omega
  | succ n ih =>
    intro len hle hb hz hf
    by_cases hL : len = L
    · subst hL
      unfold strScan
      rw [hz]
      simp
    · obtain ⟨c, hc, hc0, hcp⟩ := hb len le_rfl (by omega)
      unfold strScan
      rw [hc]
      simp only [if_neg hc0, hcp, if_pos]
      exact ih (len + 1) (by omega) (fun i h1 h2 => hb i (by omega) h2) hz (by omega)

/-- Scan lemma: a run of readable printable non-zero bytes from `len` up
to a stopping byte at `k` (unreadable, or readable but non-printable and
non-zero) makes the scan report the string unprintable. -/
theorem strScan_bad (mem : Mem) (a : Int) (k : Nat) :
    ∀ fuel len, len ≤ k →
    (∀ i : Nat, len ≤ i → i < k →
      ∃ c, mem.byte (a + (i : Int)) = some c ∧ c ≠ 0 ∧ isPrintB c = true) →
    (mem.byte (a + (k : Int)) = none ∨
      ∃ c, mem.byte (a + (k : Int)) = some c ∧ c ≠ 0 ∧ isPrintB c = false) →
    k - len < fuel →
    strScan mem a len fuel = some none := by
  intro fuel
  induction fuel with
  | zero => intro len _ _ _ hf; omega
  | succ n ih =>
    intro len hle hb hstop hf
    by_cases hL : len = k
    · subst hL
      unfold strScan
      rcases hstop with h | ⟨c, hc, hc0, hcp⟩
      · rw [h]
      · rw [hc]
        simp [hc0, hcp]
    · obtain ⟨c, hc, hc0, hcp⟩ := hb len le_rfl (by omega)
      unfold strScan
      rw [hc]
      simp only [if_neg hc0, hcp, if_pos]
      exact ih (len + 1) (by omega) (fun i h1 h2 => hb i (by omega) h2) hstop (by omega)

/-- The output loop prints exactly the scanned bytes. -/
theorem strBody_eq (mem : Mem) (a : Int) (n : Nat) (b : Nat → Int)
    (hb : ∀ i : Nat, i < n → mem.byte (a + (i : Int)) = some (b i)) :
    strBody mem a n =
      String.mk ((List.range n).map fun i => Char.ofNat (b i).toNat) := by
  unfold strBody
  congr 1
  apply List.map_congr_left
  intro i hi
  rw [hb i (List.mem_range.mp hi)]
  rfl

/-- C3 (counterexample): the string of length exactly MAX_STRING_LEN = 25
(25 printable bytes then the terminator) renders fully quoted with no
ellipsis marker, refuting the claim that length >= MAX_STRING_LEN renders
truncated with an ellipsis. -/
theorem c3_counterexample :
    is_string_print memS 1 40 = some (some 25) ∧
    print_string memS 1 40 = some "\"AAAAAAAAAAAAAAAAAAAAAAAAA\"" ∧
    ("\"AAAAAAAAAAAAAAAAAAAAAAAAA\"" : String) ≠
      "\"AAAAAAAAAAAAAAAAAAAAAAAAA...\"" := by
  refine ⟨by rfl, by rfl, by decide⟩

/-- C3 (amended): STRING rendering of the write-probe revision.  A null
pointer renders as the %#x pointer fallback; a non-null pointer to a
fully readable, null-terminated, all-printable string of length L renders
min(L, MAX_STRING_LEN) chars in double quotes with the ellipsis marker
exactly when L exceeds MAX_STRING_LEN (so L < MAX_STRING_LEN renders the
whole string, and L = MAX_STRING_LEN renders whole with no ellipsis); a
pointer with an unreadable or non-printable byte before the terminator
renders as the raw pointer value — in every case the result is a
rendering, never a fault. -/
theorem c3_string_rendering (mem : Mem) (sfuel : Nat) :
    (print_string mem 0 sfuel = some (fmtHexAlt 0)) ∧
    (∀ (a : Int) (L : Nat) (b : Nat → Int), a ≠ 0 →
      (∀ i : Nat, i < L → mem.byte (a + (i : Int)) = some (b i)) →
      (∀ i : Nat, i < L → b i ≠ 0 ∧ isPrintB (b i) = true) →
      mem.byte (a + (L : Int)) = some 0 →
      L < sfuel →
      print_string mem a sfuel =
        some ("\"" ++
          String.mk ((List.range (min L MAX_STRING_LEN)).map
            fun i => Char.ofNat (b i).toNat) ++
          (if MAX_STRING_LEN < L then "..." else "") ++ "\"")) ∧
    (∀ (a : Int) (k : Nat), a ≠ 0 →
      (∀ i : Nat, i < k →
        ∃ c, mem.byte (a + (i : Int)) = some c ∧ c ≠ 0 ∧ isPrintB c = true) →
      (mem.byte (a + (k : Int)) = none ∨
        ∃ c, mem.byte (a + (k : Int)) = some c ∧ c ≠ 0 ∧ isPrintB c = false) →
      k < sfuel →
      print_string mem a sfuel = some (fmtHexAlt a)) := by
  refine ⟨?_, ?_, ?_⟩
  · unfold print_string is_string_print
    simp
  · intro a L b ha hb hgood hz hf
    have hscan : strScan mem a 0 sfuel = some (some L) := by
      refine strScan_ok mem a L sfuel 0 (Nat.zero_le L) ?_ hz (by omega)
      intro i _ h2
      exact ⟨b i, hb i h2, (hgood i h2).1, (hgood i h2).2⟩
    unfold print_string is_string_print
    rw [if_neg ha, hscan]
    have hbody : strBody mem a (min L MAX_STRING_LEN) =
        String.mk ((List.range (min L MAX_STRING_LEN)).map
          fun i => Char.ofNat (b i).toNat) := by
      refine strBody_eq mem a _ b ?_
      intro i hi
      exact hb i (lt_of_lt_of_le hi (Nat.min_le_left L MAX_STRING_LEN))
    simp only [hbody]
    have hif : (MAX_STRING_LEN ≤ min L MAX_STRING_LEN ∧ min L MAX_STRING_LEN < L)
        ↔ MAX_STRING_LEN < L := by
      constructor
      · rintro ⟨h1, h2⟩
        rcases Nat.le_total L MAX_STRING_LEN with h | h
        · rw [Nat.min_eq_left h] at h2; omega
        · rw [Nat.min_eq_right h] at h1 h2; omega
      · intro h
        rw [Nat.min_eq_right (le_of_lt h)]
        exact ⟨le_rfl, h⟩
    by_cases h : MAX_STRING_LEN < L
    · rw [if_pos (hif.mpr h), if_pos h]
    · rw [if_neg (fun hc => h (hif.mp hc)), if_neg h]
  · intro a k ha hb hstop hf
    have hscan : strScan mem a 0 sfuel = some none :=
      strScan_bad mem a k sfuel 0 (Nat.zero_le k)
        (fun i _ h2 => hb i h2) hstop (by omega)
    unfold print_string is_string_print
    rw [if_neg ha, hscan]

/-- C3 (witness): the amended theorem applied to the concrete string "Hi"
of length 2 at address 10 in memHi. -/
theorem c3_string_rendering_witness :
    print_string memHi 10 5 = some "\"Hi\"" := by
  have h := (c3_string_rendering memHi 5).2.1 10 2
    (fun i => if i = 0 then 72 else 105)
    (by decide)
    (by intro i hi; interval_cases i <;> rfl)
    (by intro i hi; interval_cases i <;> exact ⟨by decide, by decide⟩)
    (by rfl) (by decide)
  simpa using h

/-- C5: STRING_ARRAY rendering (write-probe revision; the sigsetjmp
revision shares the rendering logic).  A null array pointer renders
exactly "0x0".  For a readable array whose leading non-null entries
number N (entry i holding pointer `p i`, rendered by the STRING rule as
`s i`), the output is the brace-wrapped comma-joined list of the first
min(N, MAX_ARRAY_LEN) rendered strings, with the ellipsis marker exactly
when N exceeds MAX_ARRAY_LEN. -/
theorem c5_string_array_rendering (mem : Mem) (sfuel : Nat) :
    (print_string_array mem sfuel 0 = PRes.ok "0x0") ∧
    (∀ (a : Int) (N : Nat) (p : Nat → Int) (s : Nat → String),
      a ≠ 0 →
      (∀ i : Nat, i ≤ min N MAX_ARRAY_LEN →
        mem.word (a + 4 * (i : Int)) = some (p i)) →
      (∀ i : Nat, i < N → p i ≠ 0) →
      (N ≤ MAX_ARRAY_LEN → p N = 0) →
      (∀ i : Nat, i < min N MAX_ARRAY_LEN →
        print_string mem (p i) sfuel = some (s i)) →
      print_string_array mem sfuel a =
        PRes.ok ("\x7b" ++
          String.intercalate ", " ((List.range (min N MAX_ARRAY_LEN)).map s) ++
          (if MAX_ARRAY_LEN < N then ", ..." else "") ++ "\x7d")) := by
  constructor
  · unfold print_string_array
    simp
  · intro a N p s ha hread hnn hz hps
    match N with
    | 0 =>
      have h0 := hread 0 (by decide)
      have hp0 : p 0 = 0 := hz (by decide)
      simp only [print_string_array, if_neg ha, MAX_ARRAY_LEN, psaLoopP, h0, hp0]
      simp [String.intercalate]
    | 1 =>
      have h0 := hread 0 (by decide)
      have h1 := hread 1 (by decide)
      have hp0 : p 0 ≠ 0 := hnn 0 (by decide)
      have hp1 : p 1 = 0 := hz (by decide)
      have hs0 := hps 0 (by decide)
      simp only [print_string_array, if_neg ha, MAX_ARRAY_LEN, psaLoopP,
        h0, h1, hp0, hp1, hs0]
      norm_num
      rw [if_neg hp0]
      simp [List.range_succ, String.intercalate, String.intercalate.go,
        String.append_assoc]
    | 2 =>
      have h0 := hread 0 (by decide)
      have h1 := hread 1 (by decide)
      have h2 := hread 2 (by decide)
      have hp0 : p 0 ≠ 0 := hnn 0 (by decide)
      have hp1 : p 1 ≠ 0 := hnn 1 (by decide)
      have hp2 : p 2 = 0 := hz (by decide)
      have hs0 := hps 0 (by decide)
      have hs1 := hps 1 (by decide)
      simp only [print_string_array, if_neg ha, MAX_ARRAY_LEN, psaLoopP,
        h0, h1, h2, hp0, hp1, hp2, hs0, hs1]
      norm_num
      rw [if_neg hp0]
      simp [hp1, List.range_succ, String.intercalate, String.intercalate.go,
        String.append_assoc]
    | 3 =>
      have h0 := hread 0 (by decide)
      have h1 := hread 1 (by decide)
      have h2 := hread 2 (by decide)
      have h3 := hread 3 (by decide)
      have hp0 : p 0 ≠ 0 := hnn 0 (by decide)
      have hp1 : p 1 ≠ 0 := hnn 1 (by decide)
      have hp2 : p 2 ≠ 0 := hnn 2 (by decide)
      have hp3 : p 3 = 0 := hz (by decide)
      have hs0 := hps 0 (by decide)
      have hs1 := hps 1 (by decide)
      have hs2 := hps 2 (by decide)
      simp only [print_string_array, if_neg ha, MAX_ARRAY_LEN, psaLoopP,
        h0, h1, h2, h3, hp0, hp1, hp2, hp3, hs0, hs1, hs2]
      norm_num
      rw [if_neg hp0]
      simp [hp1, hp2, List.range_succ, String.intercalate, String.intercalate.go,
        String.append_assoc]
    | n + 4 =>
      have hmin : min (n + 4) MAX_ARRAY_LEN = 3 := by
        simp only [MAX_ARRAY_LEN]; omega
      have h0 := hread 0 (by omega)
      have h1 := hread 1 (by omega)
      have h2 := hread 2 (by omega)
      have h3 := hread 3 (by omega)
      have hp0 : p 0 ≠ 0 := hnn 0 (by omega)
      have hp1 : p 1 ≠ 0 := hnn 1 (by omega)
      have hp2 : p 2 ≠ 0 := hnn 2 (by omega)
      have hp3 : p 3 ≠ 0 := hnn 3 (by omega)
      have hs0 := hps 0 (by omega)
      have hs1 := hps 1 (by omega)
      have hs2 := hps 2 (by omega)
      have hN : MAX_ARRAY_LEN < n + 4 := by simp only [MAX_ARRAY_LEN]; omega
      rw [hmin, if_pos hN]
      simp only [print_string_array, if_neg ha, MAX_ARRAY_LEN, psaLoopP,
        h0, h1, h2, h3, hp0, hp1, hp2, hp3, hs0, hs1, hs2]
      norm_num
      rw [if_neg hp0]
      simp [hp1, hp2, hp3, List.range_succ, String.intercalate,
        String.intercalate.go, String.append_assoc]

/-- C5 (witness): the theorem applied to the concrete one-element array
at address 8 of memArr, whose single entry points at "hi". -/
theorem c5_string_array_rendering_witness :
    print_string_array memArr 40 8 = PRes.ok "\x7b\"hi\"\x7d" := by
  have h := (c5_string_array_rendering memArr 40).2 8 1
    (fun i => if i = 0 then 50 else 0) (fun _ => "\"hi\"")
    (by decide)
    (by
      intro i hi
      have h1 : i ≤ 1 := le_trans hi (Nat.min_le_left 1 MAX_ARRAY_LEN)
      interval_cases i <;> rfl)
    (by intro i hi; interval_cases i <;> decide)
    (by intro _; rfl)
    (by
      intro i hi
      have h1 : i < 1 := lt_of_lt_of_le hi (Nat.min_le_left 1 MAX_ARRAY_LEN)
      interval_cases i
      rfl)
  simpa using h

/-- C6 (counterexample): the corrupted frame of memC halts the traversal
(with the FATAL line) although its frame pointer 200 is non-null, its
return address resolves to "f" (not the startup function), and its
heuristic exit address 1113 resolves to no function at all — so the
walker stops in a case outside the claim's three termination conditions,
refuting the "exactly when". -/
theorem c6_counterexample :
    traceback tblB memC 5 10 200 = ("FATAL: Stack Wrong!\n", TbStatus.done) ∧
    (200 : Int) ≠ 0 ∧
    get_index tblB 105 = 0 ∧ (tblGetD tblB 0).name = "f" ∧
    get_index tblB 1113 = -1 := by
  exact ⟨rfl, by decide, rfl, rfl, rfl⟩

/-- C6 (amended): one-step characterisation of the write-probe walker on
a readable frame.  The traversal stops exactly when the corruption check
fires (saved frame pointer not strictly above the frame pointer — there
is no null-frame-pointer test in this revision) or when the frame
resolves and is_main accepts: the current function is "_start" or the
heuristic exit index names "exit"; an unresolved frame emits the
raw-address line and continues; a resolved non-terminal frame emits its
frame line and continues into the saved frame pointer. -/
theorem c6_walker_step (tbl : List Functsym) (mem : Mem) (sfuel fuel : Nat)
    (ebp ofp ra : Int)
    (hw : mem.word ebp = some ofp) (hr : mem.word (ebp + 4) = some ra) :
    (ofp ≤ ebp →
      traceback tbl mem sfuel (fuel + 1) ebp =
        ("FATAL: Stack Wrong!\n", TbStatus.done)) ∧
    (ebp < ofp → get_index tbl ra < 0 →
      traceback tbl mem sfuel (fuel + 1) ebp =
        emit ("Function 0x" ++ hexStr (uns32 ra) ++ "(...), in\n")
          (traceback tbl mem sfuel fuel ofp)) ∧
    (∀ m : Int, ebp < ofp → 0 ≤ get_index tbl ra →
      mem.word (ra + 4) = some m →
      is_main tbl (get_index tbl ra) (get_index tbl (ra + m + 8)) = some true →
      traceback tbl mem sfuel (fuel + 1) ebp = ("", TbStatus.done)) ∧
    (∀ (m : Int) (s : String), ebp < ofp → 0 ≤ get_index tbl ra →
      mem.word (ra + 4) = some m →
      is_main tbl (get_index tbl ra) (get_index tbl (ra + m + 8)) = some false →
      print_arguments mem sfuel (tblGetD tbl (get_index tbl ra).toNat) ofp =
        PRes.ok s →
      traceback tbl mem sfuel (fuel + 1) ebp =
        emit ("Function " ++ (tblGetD tbl (get_index tbl ra).toNat).name ++
            "(" ++ s ++ "), in\n")
          (traceback tbl mem sfuel fuel ofp)) := by
  refine ⟨?_, ?_, ?_, ?_⟩
  · intro h
    simp only [traceback, hw, hr, if_pos h]
  · intro h1 h2
    simp only [traceback, hw, hr, if_neg (not_le.mpr h1), if_pos h2]
  · intro m h1 h2 hm him
    simp only [traceback, hw, hr, if_neg (not_le.mpr h1),
      if_neg (not_lt.mpr h2), hm, him]
  · intro m s h1 h2 hm him hpa
    simp only [traceback, hw, hr, if_neg (not_le.mpr h1),
      if_neg (not_lt.mpr h2), hm, him, hpa]

/-- C6 (witness): the step theorem applied to the concrete frame of memE,
whose heuristic exit address resolves to "exit": the walker stops
silently. -/
theorem c6_walker_step_witness :
    traceback tblE memE 1 3 200 = ("", TbStatus.done) :=
  (c6_walker_step tblE memE 1 2 200 300 105 rfl rfl).2.2.1 1
    (by decide) (by decide) rfl rfl

/-- Scan characterisation: every slot strictly before the stop index is
named with address not exceeding `ra`; the slot at the stop index, if it
exists, is a sentinel or exceeds `ra`; and the stop index never exceeds
the array length. -/
theorem scanFind_spec (ra : Int) (tbl : List Functsym) :
    (scanFind ra tbl).1 ≤ tbl.length ∧
    (∀ k : Nat, k < (scanFind ra tbl).1 →
      ∃ g, tbl.get? k = some g ∧ g.name ≠ "" ∧ g.addr ≤ ra) ∧
    (∀ g, tbl.get? (scanFind ra tbl).1 = some g → g.name = "" ∨ ra < g.addr) := by
  induction tbl with
  | nil =>
    refine ⟨by simp [scanFind], ?_, ?_⟩
    · intro k hk; simp [scanFind] at hk
    · intro g hg; simp at hg
  | cons f rest ih =>
    by_cases hname : f.name = ""
    · refine ⟨by simp [scanFind, hname], ?_, ?_⟩
      · intro k hk; simp [scanFind, hname] at hk
      · intro g hg
        simp only [scanFind, if_pos hname, List.get?] at hg
        left
        cases hg
        exact hname
    · by_cases hlt : ra < f.addr
      · refine ⟨by simp [scanFind, hname, hlt], ?_, ?_⟩
        · intro k hk; simp [scanFind, hname, hlt] at hk
        · intro g hg
          simp only [scanFind, if_neg hname, if_pos hlt, List.get?] at hg
          right
          cases hg
          exact hlt
      · have hs : scanFind ra (f :: rest) =
            ((scanFind ra rest).1 + 1, (scanFind ra rest).2) := by
          simp [scanFind, hname, hlt]
        refine ⟨?_, ?_, ?_⟩
        · rw [hs]
          simpa using ih.1
        · intro k hk
          rw [hs] at hk
          match k with
          | 0 => exact ⟨f, rfl, hname, not_lt.mp hlt⟩
          | k' + 1 =>
            obtain ⟨g, hg1, hg2, hg3⟩ := ih.2.1 k' (by omega)
            exact ⟨g, hg1, hg2, hg3⟩
        · intro g hg
          rw [hs] at hg
          exact ih.2.2 g hg

/-- Indexing the descriptor sequence: if every slot up to `j` is named,
the descriptor sequence agrees with the raw array at `j`; conversely an
entry of the descriptor sequence is the corresponding array slot and is
named. -/
theorem leadingNamed_get (tbl : List Functsym) :
    ∀ j : Nat,
      ((∀ k : Nat, k ≤ j → ∃ g, tbl.get? k = some g ∧ g.name ≠ "") →
        (leadingNamed tbl).get? j = tbl.get? j) ∧
      (∀ f, (leadingNamed tbl).get? j = some f →
        tbl.get? j = some f ∧ f.name ≠ "") := by
  induction tbl with
  | nil =>
    intro j
    constructor
    · intro _; rfl
    · intro f hf; simp [leadingNamed] at hf
  | cons g rest ih =>
    intro j
    by_cases hname : g.name = ""
    · have hln : leadingNamed (g :: rest) = [] := by
        simp [leadingNamed, List.takeWhile_cons, hname]
      constructor
      · intro hall
        obtain ⟨g', hg', hn'⟩ := hall 0 (Nat.zero_le j)
        simp only [List.get?] at hg'
        cases hg'
        exact absurd hname hn'
      · intro f hf
        rw [hln] at hf
        simp at hf
    · have hln : leadingNamed (g :: rest) = g :: leadingNamed rest := by
        simp [leadingNamed, List.takeWhile_cons, hname]
      constructor
      · intro hall
        match j with
        | 0 => rw [hln]; rfl
        | j' + 1 =>
          rw [hln]
          simp only [List.get?]
          exact (ih j').1 (fun k hk => by
            obtain ⟨g', hg', hn'⟩ := hall (k + 1) (by omega)
            exact ⟨g', hg', hn'⟩)
      · intro f hf
        rw [hln] at hf
        match j with
        | 0 =>
          simp only [List.get?] at hf ⊢
          cases hf
          exact ⟨rfl, hname⟩
        | j' + 1 =>
          simp only [List.get?] at hf ⊢
          exact (ih j').2 f hf

/-- When the scan stops at index 0, get_index_jmp performs the
out-of-bounds read and returns -1. -/
theorem get_index_jmp_zero (maxsz : Int) (tbl : List Functsym) (ra : Int)
    (h : (scanFind ra tbl).1 = 0) :
    get_index_jmp maxsz tbl ra = (-1, true) := by
  unfold get_index_jmp
  rw [h]
  dsimp only
  have : tblAddrRead tbl (((0 : Nat) : Int) - 1) = none := by
    unfold tblAddrRead
    rw [dif_neg]
    intro hc
    omega
  rw [this]

/-- When the scan stops at index k+1, get_index_jmp reads slot k and
applies the size-bound test. -/
theorem get_index_jmp_succ (maxsz : Int) (tbl : List Functsym) (ra : Int)
    (k : Nat) (h : (scanFind ra tbl).1 = k + 1) (hlen : k < tbl.length) :
    (get_index_jmp maxsz tbl ra).1 =
      if ra - (tbl.get ⟨k, hlen⟩).addr < maxsz then (k : Int) else -1 := by
  unfold get_index_jmp
  rw [h]
  dsimp only
  have hcast : (((k + 1 : Nat) : Int) - 1) = (k : Int) := by push_cast; ring
  rw [hcast]
  have hread : tblAddrRead tbl (k : Int) = some (tbl.get ⟨k, hlen⟩).addr := by
    unfold tblAddrRead
    rw [dif_pos ⟨Int.natCast_nonneg k, by simpa using hlen⟩]
    congr 1
  rw [hread]
  dsimp only
  have h0 : (0 : Int) ≤ ((k + 1 : Nat) : Int) := Int.natCast_nonneg _
  by_cases hc : ra - (tbl.get ⟨k, hlen⟩).addr < maxsz
  · rw [if_pos (show (0 : Int) ≤ ((k + 1 : Nat) : Int) ∧
        ra - (tbl.get ⟨k, hlen⟩).addr < maxsz from ⟨h0, hc⟩), if_pos hc]
  · rw [if_neg (show ¬((0 : Int) ≤ ((k + 1 : Nat) : Int) ∧
        ra - (tbl.get ⟨k, hlen⟩).addr < maxsz) from fun hx => hc hx.2),
      if_neg hc]

/-- Pairwise address ordering transported to optional indexing. -/
theorem pairwise_addr_get? {l : List Functsym}
    (hpw : l.Pairwise (fun f g => f.addr < g.addr)) :
    ∀ (i j : Nat) (f g : Functsym), i < j →
      l.get? i = some f → l.get? j = some g → f.addr < g.addr := by
  intro i j f g hij hi hj
  obtain ⟨hi', hfi⟩ := List.get?_eq_some.mp hi
  obtain ⟨hj', hgj⟩ := List.get?_eq_some.mp hj
  have := List.pairwise_iff_get.mp hpw ⟨i, hi'⟩ ⟨j, hj'⟩ hij
  rw [hfi, hgj] at this
  exact this

/-- C1 (amended): the symbol-table lookup contract holds of the sigsetjmp
revision's get_index (whose Int result is considered; the write-probe
revision lacks the size-bound test and misses the last descriptor's exact
start address, see the counterexample).  For a sorted table and a
positive size bound: an address covered by no descriptor's
[start, start + bound) range yields NOT_FOUND; the exact start address of
descriptor j yields j; and whenever a nonnegative index j is returned,
descriptor j exists with start <= address and address - start below the
bound. -/
theorem c1_lookup_contract (maxsz : Int) (tbl : List Functsym)
    (hpos : 0 < maxsz) (hsort : SortedTable tbl) :
    (∀ ra : Int, ¬ covered maxsz tbl ra → (get_index_jmp maxsz tbl ra).1 = -1) ∧
    (∀ (j : Nat) (f : Functsym), (leadingNamed tbl).get? j = some f →
      (get_index_jmp maxsz tbl f.addr).1 = (j : Int)) ∧
    (∀ (ra : Int) (j : Nat), (get_index_jmp maxsz tbl ra).1 = (j : Int) →
      ∃ f, (leadingNamed tbl).get? j = some f ∧
        f.addr ≤ ra ∧ ra - f.addr < maxsz) := by
  have hpw : (leadingNamed tbl).Pairwise (fun f g => f.addr < g.addr) := by
    haveI : IsTrans Functsym (fun f g => f.addr < g.addr) :=
      ⟨fun a b c h1 h2 => lt_trans h1 h2⟩
    exact List.chain'_iff_pairwise.mp hsort
  refine ⟨?_, ?_, ?_⟩
  · intro ra hcov
    rcases hk : (scanFind ra tbl).1 with _ | k
    · rw [get_index_jmp_zero maxsz tbl ra hk]
    · have hlen : k < tbl.length := by
        have := (scanFind_spec ra tbl).1
        omega
      rw [get_index_jmp_succ maxsz tbl ra k hk hlen]
      obtain ⟨g, hg, hgname, hgle⟩ := (scanFind_spec ra tbl).2.1 k (by omega)
      have hget : tbl.get ⟨k, hlen⟩ = g := by
        have h1 := List.get?_eq_get hlen
        rw [h1] at hg
        exact Option.some.inj hg
      have hall : ∀ k' : Nat, k' ≤ k → ∃ g', tbl.get? k' = some g' ∧ g'.name ≠ "" := by
        intro k' hk'
        obtain ⟨g', h1, h2, _⟩ := (scanFind_spec ra tbl).2.1 k' (by omega)
        exact ⟨g', h1, h2⟩
      have hnl : (leadingNamed tbl).get? k = some g := by
        rw [(leadingNamed_get tbl k).1 hall]
        exact hg
      have hnc : ¬ (g.addr ≤ ra ∧ ra < g.addr + maxsz) := by
        intro hc
        exact hcov ⟨g, List.get?_mem hnl, hc⟩
      rw [hget, if_neg (by omega)]
  · intro j f hjf
    obtain ⟨htbl, hfname⟩ := (leadingNamed_get tbl j).2 f hjf
    obtain ⟨hjlen, _⟩ := List.get?_eq_some.mp htbl
    have hspec := scanFind_spec f.addr tbl
    have hle : (scanFind f.addr tbl).1 ≤ j + 1 := by
      by_contra hgt
      push_neg at hgt
      obtain ⟨g, hg, hgname, hgle⟩ := hspec.2.1 (j + 1) hgt
      have hall : ∀ k ≤ j + 1, ∃ g', tbl.get? k = some g' ∧ g'.name ≠ "" := by
        intro k hk
        obtain ⟨g', h1, h2, _⟩ := hspec.2.1 k (by omega)
        exact ⟨g', h1, h2⟩
      have hnl : (leadingNamed tbl).get? (j + 1) = some g := by
        rw [(leadingNamed_get tbl (j + 1)).1 hall]
        exact hg
      have hlt : f.addr < g.addr :=
        pairwise_addr_get? hpw j (j + 1) f g (by omega) hjf hnl
      omega
    have hge : j + 1 ≤ (scanFind f.addr tbl).1 := by
      by_contra hlt2
      push_neg at hlt2
      have hij : (scanFind f.addr tbl).1 ≤ j := by omega
      obtain ⟨hjln, _⟩ := List.get?_eq_some.mp hjf
      have hiln : (scanFind f.addr tbl).1 < (leadingNamed tbl).length := by omega
      obtain ⟨gi, hgi⟩ : ∃ gi,
          (leadingNamed tbl).get? (scanFind f.addr tbl).1 = some gi :=
        ⟨_, List.get?_eq_get hiln⟩
      obtain ⟨htbl_i, hgi_named⟩ := (leadingNamed_get tbl _).2 gi hgi
      rcases hspec.2.2 gi htbl_i with hemp | hra
      · exact hgi_named hemp
      · rcases Nat.lt_or_ge (scanFind f.addr tbl).1 j with hij' | hij'
        · have := pairwise_addr_get? hpw _ j gi f hij' hgi hjf
          omega
        · have heq : (scanFind f.addr tbl).1 = j := by omega
          rw [heq] at hgi
          rw [hjf] at hgi
          have : gi = f := (Option.some.inj hgi).symm
          subst this
          omega
    have hscan : (scanFind f.addr tbl).1 = j + 1 := le_antisymm hle hge
    rw [get_index_jmp_succ maxsz tbl f.addr j hscan hjlen]
    have hget : tbl.get ⟨j, hjlen⟩ = f := by
      have h1 := List.get?_eq_get hjlen
      rw [h1] at htbl
      exact Option.some.inj htbl
    rw [hget, if_pos (by omega)]
  · intro ra j hres
    rcases hk : (scanFind ra tbl).1 with _ | k
    · rw [get_index_jmp_zero maxsz tbl ra hk] at hres
      have := Int.natCast_nonneg j
      omega
    · have hlen : k < tbl.length := by
        have := (scanFind_spec ra tbl).1
        omega
      rw [get_index_jmp_succ maxsz tbl ra k hk hlen] at hres
      by_cases hc : ra - (tbl.get ⟨k, hlen⟩).addr < maxsz
      · rw [if_pos hc] at hres
        have hjk : j = k := by exact_mod_cast hres.symm
        subst hjk
        obtain ⟨g, hg, hgname, hgle⟩ := (scanFind_spec ra tbl).2.1 j (by omega)
        have hget : tbl.get ⟨j, hlen⟩ = g := by
          have h1 := List.get?_eq_get hlen
          rw [h1] at hg
          exact Option.some.inj hg
        have hall : ∀ k' : Nat, k' ≤ j →
            ∃ g', tbl.get? k' = some g' ∧ g'.name ≠ "" := by
          intro k' hk'
          obtain ⟨g', h1, h2, _⟩ := (scanFind_spec ra tbl).2.1 k' (by omega)
          exact ⟨g', h1, h2⟩
        have hnl : (leadingNamed tbl).get? j = some g := by
          rw [(leadingNamed_get tbl j).1 hall]
          exact hg
        refine ⟨g, hnl, hgle, ?_⟩
        rw [← hget]
        exact hc
      · rw [if_neg hc] at hres
        have := Int.natCast_nonneg j
        omega

/-- C1 (witness): the contract applied to tblA (one descriptor "f" at
100) at the exact start address 100, with bound 4096. -/
theorem c1_lookup_contract_witness :
    (get_index_jmp 4096 tblA 100).1 = ((0 : Nat) : Int) :=
  (c1_lookup_contract 4096 tblA (by decide)
    (by simp [SortedTable, leadingNamed, tblA])).2.1 0 ⟨"f", 100, []⟩ rfl

/-- If some byte within `fuel` positions stops the scan, the scan does
not run out of fuel. -/
theorem strScan_stops (mem : Mem) (a : Int) :
    ∀ (fuel len : Nat), stopsWithin mem (a + (len : Int)) fuel →
      strScan mem a len fuel ≠ none := by
  intro fuel
  induction fuel with
  | zero =>
    intro len hs
    obtain ⟨k, hk, _⟩ := hs
    omega
  | succ n ih =>
    intro len hs
    obtain ⟨k, hk, hstop⟩ := hs
    unfold strScan
    rcases hb : mem.byte (a + (len : Int)) with _ | c
    · simp
    · dsimp only
      by_cases hc0 : c = 0
      · simp [hc0]
      · by_cases hcp : isPrintB c
        · rw [if_neg hc0, if_pos hcp]
          apply ih (len + 1)
          have hkne : k ≠ 0 := by
            intro h0
            subst h0
            rcases hstop with h | ⟨c', hc', hd⟩
            · rw [show a + (len : Int) + ((0 : Nat) : Int) = a + (len : Int)
                by push_cast; ring] at h
              rw [hb] at h
              cases h
            · rw [show a + (len : Int) + ((0 : Nat) : Int) = a + (len : Int)
                by push_cast; ring] at hc'
              rw [hb] at hc'
              cases hc'
              rcases hd with h0 | hp
              · exact hc0 h0
              · rw [hcp] at hp
                cases hp
          refine ⟨k - 1, by omega, ?_⟩
          have harith : a + ((len + 1 : Nat) : Int) + ((k - 1 : Nat) : Int) =
              a + (len : Int) + (k : Int) := by
            push_cast [Nat.cast_sub (by omega : 1 ≤ k)]
            ring
          rw [harith]
          exact hstop
        · rw [if_neg hc0, if_neg hcp]
          simp

/-- Under the scan-stop hypothesis, print_string always yields a
rendering (and so does the sigsetjmp variant). -/
theorem print_string_total (mem : Mem) (sfuel : Nat)
    (hstop : ∀ p : Int, stopsWithin mem p sfuel) (p : Int) :
    print_string mem p sfuel ≠ none ∧ print_string_jmp mem p sfuel ≠ none := by
  have hscan : strScan mem p 0 sfuel ≠ none := by
    apply strScan_stops mem p sfuel 0
    have := hstop p
    rw [show p + ((0 : Nat) : Int) = p by push_cast; ring]
    exact this
  constructor
  · unfold print_string is_string_print
    by_cases hp : p = 0
    · simp [hp]
    · rw [if_neg hp]
      rcases h : strScan mem p 0 sfuel with _ | v
      · exact absurd h hscan
      · rcases v with _ | len <;> simp
  · unfold print_string_jmp is_string_print
    by_cases hp : p = 0
    · simp [hp]
    · rw [if_neg hp]
      rcases h : strScan mem p 0 sfuel with _ | v
      · exact absurd h hscan
      · rcases v with _ | len <;> simp

/-- The element loop of the write-probe print_string_array never runs out
of steps when started with the structural budget. -/
theorem psaLoopP_not_fuelOut (mem : Mem) (sfuel : Nat) (a : Int)
    (hstop : ∀ p : Int, stopsWithin mem p sfuel) :
    ∀ (k i : Nat) (acc : String), i ≤ MAX_ARRAY_LEN →
      MAX_ARRAY_LEN + 1 ≤ i + k →
      (psaLoopP mem sfuel a i k acc).isFuelOut = false := by
  intro k
  induction k with
  | zero =>
    intro i acc h1 h2
    simp only [MAX_ARRAY_LEN] at h1 h2
    omega
  | succ n ih =>
    intro i acc h1 h2
    unfold psaLoopP
    rcases hw : mem.word (a + 4 * (i : Int)) with _ | p
    · rfl
    · dsimp only
      by_cases hc : p ≠ 0 ∧ i < MAX_ARRAY_LEN
      · rw [if_pos hc]
        rcases hps : print_string mem p sfuel with _ | s
        · exact absurd hps (print_string_total mem sfuel hstop p).1
        · dsimp only
          exact ih (i + 1) _ (by omega : i + 1 ≤ MAX_ARRAY_LEN) (by omega)
      · rw [if_neg hc]
        rfl

/-- The element loop of the sigsetjmp print_string_array never runs out
of steps when started with the structural budget. -/
theorem psaLoopJ_not_fuelOut (mem : Mem) (sfuel : Nat) (a : Int)
    (hstop : ∀ p : Int, stopsWithin mem p sfuel) :
    ∀ (k i : Nat) (acc : String), i ≤ MAX_ARRAY_LEN →
      MAX_ARRAY_LEN + 1 ≤ i + k →
      psaLoopJ mem sfuel a i k acc ≠ none := by
  intro k
  induction k with
  | zero =>
    intro i acc h1 h2
    simp only [MAX_ARRAY_LEN] at h1 h2
    omega
  | succ n ih =>
    intro i acc h1 h2
    unfold psaLoopJ
    rcases hw : mem.word (a + 4 * (i : Int)) with _ | p
    · simp
    · dsimp only
      by_cases hc : p ≠ 0 ∧ i < MAX_ARRAY_LEN
      · rw [if_pos hc]
        rcases hps : print_string_jmp mem p sfuel with _ | s
        · exact absurd hps (print_string_total mem sfuel hstop p).2
        · dsimp only
          exact ih (i + 1) _ (by omega : i + 1 ≤ MAX_ARRAY_LEN) (by omega)
      · rw [if_neg hc]
        simp

/-- Both revisions of print_string_array return within their structural
budget. -/
theorem print_string_array_total (mem : Mem) (sfuel : Nat)
    (hstop : ∀ p : Int, stopsWithin mem p sfuel) (a : Int) :
    (print_string_array mem sfuel a).isFuelOut = false ∧
    print_string_array_jmp mem sfuel a ≠ none := by
  constructor
  · unfold print_string_array
    by_cases ha : a = 0
    · rw [if_pos ha]; rfl
    · rw [if_neg ha]
      exact psaLoopP_not_fuelOut mem sfuel a hstop (MAX_ARRAY_LEN + 1) 0 _
        (by omega) (by omega)
  · unfold print_string_array_jmp
    by_cases ha : a = 0
    · rw [if_pos ha]; simp
    · rw [if_neg ha]
      by_cases hpre : psaPre mem a 0 MAX_ARRAY_LEN
      · rw [if_pos hpre]; simp
      · rw [if_neg hpre]
        exact psaLoopJ_not_fuelOut mem sfuel a hstop (MAX_ARRAY_LEN + 1) 0 _
          (by omega) (by omega)

/-- A single argument rendering never runs out of fuel, in either
revision. -/
theorem render_arg_not_fuelOut (mem : Mem) (sfuel : Nat)
    (hstop : ∀ p : Int, stopsWithin mem p sfuel) (ebp : Int) (arg : Argsym) :
    (render_arg mem sfuel ebp arg).isFuelOut = false ∧
    (render_arg_jmp mem sfuel ebp arg).isFuelOut = false := by
  constructor
  · unfold render_arg
    rcases arg.type <;> dsimp only
    · rcases mem.byte (ebp + 4 * arg.offset.tdiv 4) with _ | c
      · rfl
      · dsimp only
        by_cases hc : isPrintB c
        · rw [if_pos hc]; rfl
        · rw [if_neg hc]; rfl
    · rcases mem.word (ebp + 4 * arg.offset.tdiv 4) with _ | v <;> rfl
    · rcases mem.word (ebp + 4 * arg.offset.tdiv 4) with _ | v <;> rfl
    · rcases mem.word (ebp + 4 * arg.offset.tdiv 4) with _ | v1 <;>
        rcases mem.word (ebp + 4 * arg.offset.tdiv 4 + 4) with _ | v2 <;> rfl
    · rcases mem.word (ebp + 4 * arg.offset.tdiv 4) with _ | p
      · rfl
      · dsimp only
        rcases hps : print_string mem p sfuel with _ | s
        · exact absurd hps (print_string_total mem sfuel hstop p).1
        · rfl
    · rcases mem.word (ebp + 4 * arg.offset.tdiv 4) with _ | p
      · rfl
      · dsimp only
        rcases hps : print_string_array mem sfuel p with s | s | s
        · rfl
        · rfl
        · have := (print_string_array_total mem sfuel hstop p).1
          rw [hps] at this
          cases this
    · rcases mem.word (ebp + 4 * arg.offset.tdiv 4) with _ | v <;> rfl
    · rfl
  · unfold render_arg_jmp
    rcases arg.type <;> dsimp only
    · rcases mem.byte (ebp + 4 * arg.offset.tdiv 4) with _ | c
      · rfl
      · dsimp only
        by_cases hc : isPrintB c
        · rw [if_pos hc]; rfl
        · rw [if_neg hc]; rfl
    · rcases mem.word (ebp + 4 * arg.offset.tdiv 4) with _ | v <;> rfl
    · rcases mem.word (ebp + 4 * arg.offset.tdiv 4) with _ | v <;> rfl
    · rcases mem.word (ebp + 4 * arg.offset.tdiv 4) with _ | v1 <;>
        rcases mem.word (ebp + 4 * arg.offset.tdiv 4 + 4) with _ | v2 <;> rfl
    · rcases mem.word (ebp + 4 * arg.offset.tdiv 4) with _ | p
      · rfl
      · dsimp only
        rcases hps : print_string_jmp mem p sfuel with _ | s
        · exact absurd hps (print_string_total mem sfuel hstop p).2
        · rfl
    · rcases mem.word (ebp + 4 * arg.offset.tdiv 4) with _ | p
      · rfl
      · dsimp only
        rcases hps : print_string_array_jmp mem sfuel p with _ | s
        · exact absurd hps (print_string_array_total mem sfuel hstop p).2
        · rfl
    · rcases mem.word (ebp + 4 * arg.offset.tdiv 4) with _ | v <;> rfl
    · rfl

/-- The argument loops never run out of fuel. -/
theorem argsLoop_not_fuelOut (mem : Mem) (sfuel : Nat)
    (hstop : ∀ p : Int, stopsWithin mem p sfuel) (ebp : Int) :
    ∀ (args : List Argsym) (idx : Nat) (acc : String),
      (argsLoop mem sfuel ebp args idx acc).isFuelOut = false ∧
      (argsLoopJ mem sfuel ebp args idx acc).isFuelOut = false := by
  intro args
  induction args with
  | nil => intro idx acc; exact ⟨rfl, rfl⟩
  | cons arg rest ih =>
    intro idx acc
    constructor
    · unfold argsLoop
      by_cases hn : arg.name = ""
      · rw [if_pos hn]; rfl
      · rw [if_neg hn]
        dsimp only
        rcases hr : render_arg mem sfuel ebp arg with s | s | s
        · exact (ih (idx + 1) _).1
        · rfl
        · have := (render_arg_not_fuelOut mem sfuel hstop ebp arg).1
          rw [hr] at this
          cases this
    · unfold argsLoopJ
      by_cases hn : arg.name = ""
      · rw [if_pos hn]; rfl
      · rw [if_neg hn]
        dsimp only
        rcases hr : render_arg_jmp mem sfuel ebp arg with s | s | s
        · exact (ih (idx + 1) _).2
        · rfl
        · have := (render_arg_not_fuelOut mem sfuel hstop ebp arg).2
          rw [hr] at this
          cases this

/-- print_arguments never runs out of fuel, in either revision. -/
theorem print_arguments_not_fuelOut (mem : Mem) (sfuel : Nat)
    (hstop : ∀ p : Int, stopsWithin mem p sfuel) (f : Functsym) (ebp : Int) :
    (print_arguments mem sfuel f ebp).isFuelOut = false ∧
    (print_arguments_jmp mem sfuel f ebp).isFuelOut = false := by
  constructor
  · unfold print_arguments
    rcases f.args with _ | ⟨arg, rest⟩
    · rfl
    · dsimp only
      by_cases hn : arg.name = ""
      · rw [if_pos hn]; rfl
      · rw [if_neg hn]
        exact (argsLoop_not_fuelOut mem sfuel hstop ebp _ 0 "").1
  · unfold print_arguments_jmp
    rcases f.args with _ | ⟨arg, rest⟩
    · rfl
    · dsimp only
      by_cases hn : arg.name = ""
      · rw [if_pos hn]; rfl
      · rw [if_neg hn]
        exact (argsLoop_not_fuelOut mem sfuel hstop ebp _ 0 "").2

/-- The write-probe walker halts within 2^32 steps: every continuing
iteration strictly increases the frame pointer, which 32-bit memory words
bound by 2^32. -/
theorem traceback_not_fuelOut (tbl : List Functsym) (mem : Mem) (sfuel : Nat)
    (hstop : ∀ p : Int, stopsWithin mem p sfuel)
    (hv : ∀ a v : Int, mem.word a = some v → 0 ≤ v ∧ v < 2 ^ 32) :
    ∀ (fuel : Nat) (ebp : Int), 0 ≤ ebp → 2 ^ 32 - ebp.toNat < fuel →
      (traceback tbl mem sfuel fuel ebp).2 ≠ TbStatus.fuelOut := by
  intro fuel
  induction fuel with
  | zero => intro ebp h1 h2; omega
  | succ n ih =>
    intro ebp h1 h2
    unfold traceback
    rcases hw : mem.word ebp with _ | old_ebp
    · rcases hr : mem.word (ebp + 4) with _ | ra <;> simp
    · rcases hr : mem.word (ebp + 4) with _ | ra
      · simp
      · dsimp only
        by_cases hcor : old_ebp ≤ ebp
        · rw [if_pos hcor]; simp
        · rw [if_neg hcor]
          have hold := hv ebp old_ebp hw
          have hlt : ebp < old_ebp := lt_of_not_le hcor
          have hrec : (traceback tbl mem sfuel n old_ebp).2 ≠ TbStatus.fuelOut := by
            apply ih old_ebp hold.1
            omega
          by_cases hidx : get_index tbl ra < 0
          · rw [if_pos hidx]
            simpa [emit] using hrec
          · rw [if_neg hidx]
            rcases hm : mem.word (ra + 4) with _ | m
            · simp
            · dsimp only
              rcases him : is_main tbl (get_index tbl ra)
                  (get_index tbl (ra + m + 8)) with _ | b
              · simp
              · rcases b with _ | _
                · rcases hpa : print_arguments mem sfuel
                      (tblGetD tbl (get_index tbl ra).toNat) old_ebp with s | s | s
                  · simpa [emit] using hrec
                  · simp
                  · have := (print_arguments_not_fuelOut mem sfuel hstop
                      (tblGetD tbl (get_index tbl ra).toNat) old_ebp).1
                    rw [hpa] at this
                    cases this
                · simp

/-- The sigsetjmp walker halts within 2^32 + 1 steps: a continuing
iteration either moves to the null frame pointer (which stops next
iteration) or strictly increases the frame pointer. -/
theorem traceback_jmp_not_fuelOut (maxsz : Int) (tbl : List Functsym)
    (mem : Mem) (sfuel : Nat)
    (hstop : ∀ p : Int, stopsWithin mem p sfuel)
    (hv : ∀ a v : Int, mem.word a = some v → 0 ≤ v ∧ v < 2 ^ 32) :
    ∀ (fuel : Nat) (ebp : Int), 0 ≤ ebp → ebp < 2 ^ 32 →
      jmpFuelNeed ebp ≤ fuel →
      (traceback_jmp maxsz tbl mem sfuel fuel ebp).2 ≠ TbStatus.fuelOut := by
  intro fuel
  induction fuel with
  | zero =>
    intro ebp h1 h2 h3
    unfold jmpFuelNeed at h3
    by_cases h0 : ebp = 0
    · rw [if_pos h0] at h3; omega
    · rw [if_neg h0] at h3
      have : ebp.toNat < 2 ^ 32 := by omega
      omega
  | succ n ih =>
    intro ebp h1 h2 h3
    unfold traceback_jmp
    by_cases h0 : ebp = 0
    · rw [if_pos h0]; simp
    · rw [if_neg h0]
      have hneed : jmpFuelNeed ebp = 2 ^ 32 + 1 - ebp.toNat := if_neg h0
      rcases hw : mem.word ebp with _ | old_ebp
      · rcases hr : mem.word (ebp + 4) with _ | ra <;> simp
      · rcases hr : mem.word (ebp + 4) with _ | ra
        · simp
        · dsimp only
          by_cases hcor : old_ebp ≠ 0 ∧ old_ebp ≤ ebp
          · rw [if_pos hcor]; simp
          · rw [if_neg hcor]
            have hold := hv ebp old_ebp hw
            have hrec : (traceback_jmp maxsz tbl mem sfuel n old_ebp).2 ≠
                TbStatus.fuelOut := by
              apply ih old_ebp hold.1 hold.2
              unfold jmpFuelNeed
              by_cases ho0 : old_ebp = 0
              · rw [if_pos ho0]
                rw [hneed] at h3
                omega
              · rw [if_neg ho0]
                have hlt : ebp < old_ebp := by
                  rcases not_and_or.mp hcor with h | h
                  · exact absurd ho0 h
                  · exact lt_of_not_le h
                rw [hneed] at h3
                omega
            by_cases hidx : (get_index_jmp maxsz tbl ra).1 < 0
            · rw [if_pos hidx]
              simpa [emit] using hrec
            · rw [if_neg hidx]
              rcases hm : mem.word (ra + 4) with _ | m
              · simp
              · rcases hpa : print_arguments_jmp mem sfuel
                    (tblGetD tbl (get_index_jmp maxsz tbl ra).1.toNat) old_ebp
                    with s | s | s
                · simpa [emit] using hrec
                · simp
                · have := (print_arguments_not_fuelOut mem sfuel hstop
                    (tblGetD tbl (get_index_jmp maxsz tbl ra).1.toNat) old_ebp).2
                  rw [hpa] at this
                  cases this

/-- C7: with fuel 2^32 + 2, neither revision of the walk exhausts it —
the traversal always terminates, because a continuing iteration requires
a strictly larger (32-bit) frame pointer, and the per-frame string and
array work is bounded (every string scan meets a stopping byte, true of
any finite memory). -/
theorem c7_termination (maxsz : Int) (tbl : List Functsym) (mem : Mem)
    (sfuel : Nat) (ebp : Int)
    (hstop : ∀ p : Int, stopsWithin mem p sfuel)
    (hv : ∀ a v : Int, mem.word a = some v → 0 ≤ v ∧ v < 2 ^ 32)
    (h1 : 0 ≤ ebp) (h2 : ebp < 2 ^ 32) :
    (traceback tbl mem sfuel (2 ^ 32 + 2) ebp).2 ≠ TbStatus.fuelOut ∧
    (traceback_jmp maxsz tbl mem sfuel (2 ^ 32 + 2) ebp).2 ≠ TbStatus.fuelOut := by
  constructor
  · apply traceback_not_fuelOut tbl mem sfuel hstop hv (2 ^ 32 + 2) ebp h1
    omega
  · apply traceback_jmp_not_fuelOut maxsz tbl mem sfuel hstop hv (2 ^ 32 + 2)
      ebp h1 h2
    unfold jmpFuelNeed
    by_cases h0 : ebp = 0
    · rw [if_pos h0]; omega
    · rw [if_neg h0]; omega

/-- C7 (witness): the termination theorem applied to the fully unreadable
memory from frame pointer 0. -/
theorem c7_termination_witness :
    (traceback tblA memNone 1 (2 ^ 32 + 2) 0).2 ≠ TbStatus.fuelOut ∧
    (traceback_jmp 4096 tblA memNone 1 (2 ^ 32 + 2) 0).2 ≠ TbStatus.fuelOut :=
  c7_termination 4096 tblA memNone 1 0
    (fun p => ⟨0, by omega, Or.inl rfl⟩)
    (fun a v h => by cases h)
    (by omega) (by omega)
